import Mathlib

/-!
Verification of the lexicon resolution and batching layer of the
phonetisaurus wrapper: the lexicon store (`load_lexicon`), the training
serialization filter (`train` / `_LEXICON_SKIP`), and the prediction
front end (`guess_words` / `do_predict`).

Strings are modelled as lists of characters.  Python dicts are modelled as
insertion-ordered association lists (Python dicts preserve insertion order
and never hold duplicate keys).  The external guesser process is modelled,
per the external-interface contract, as a function giving each submitted
word its guessed pronunciations.
-/

namespace Phonetisaurus

/-- Words, lines and phoneme tokens are lists of characters. -/
abbrev Str := List Char

/-- A pronunciation: an ordered list of phoneme tokens. -/
abbrev Pron := List Str

/-- `LEXICON_TYPE`: word → list of pronunciations, as an association list. -/
abbrev Lexicon := List (Str × List Pron)

/-- One emitted result of `guess_words`: a (word, pronunciation) pair. -/
abbrev Output := Str × Pron

/-- The characters stripped by Python `str.strip()` and matched by `\s` in a
Python 3 string regex (`Py_UNICODE_ISSPACE`). -/
def pyIsSpace (c : Char) : Bool :=
  let n := c.toNat
  (0x09 ≤ n && n ≤ 0x0D) || n == 0x20 || (0x1C ≤ n && n ≤ 0x1F) || n == 0x85 ||
    n == 0xA0 || n == 0x1680 || (0x2000 ≤ n && n ≤ 0x200A) || n == 0x2028 ||
    n == 0x2029 || n == 0x202F || n == 0x205F || n == 0x3000

/-- Python `str.strip()`: remove leading and trailing whitespace. -/
def pyStrip (s : Str) : Str :=
  ((s.dropWhile pyIsSpace).reverse.dropWhile pyIsSpace).reverse

/-- `_WHITESPACE = re.compile(r"[ \t]+")`: the library's default separator
class; only space and tab, U+00A0 excluded. -/
def whitespaceSep (c : Char) : Bool := c == ' ' || c == '\t'

/-- The character class of the regex `\s+`, the separator regex the
command-line front end passes by default (`--lexicon-word-separator` and
`--lexicon-phoneme-separator` both default to `\s+`). -/
def pythonSpaceSep (c : Char) : Bool := pyIsSpace c

/-- Skip a maximal run of separator characters. -/
def dropRun (isSep : Char → Bool) : Str → Str
  | [] => []
  | c :: cs => if isSep c then dropRun isSep cs else c :: cs

/-- `re.split(sep, line, maxsplit=1)` for a separator-class regex `[..]+`:
split at the first maximal separator run.  `none` when the separator does not
occur, in which case the tuple unpacking in `load_lexicon` raises
`ValueError` and the line is skipped. -/
def splitMax1 (isSep : Char → Bool) : Str → Option (Str × Str)
  | [] => none
  | c :: cs =>
    if isSep c then some ([], dropRun isSep cs)
    else (splitMax1 isSep cs).map (fun p => (c :: p.1, p.2))

/-- Worker for `splitAll`: `acc` is the current token (reversed), `inSep`
records whether the previous character belonged to a separator run. -/
def splitAllGo (isSep : Char → Bool) : Str → Str → Bool → List Str
  | [], acc, _ => [acc.reverse]
  | c :: cs, acc, inSep =>
    if isSep c then
      if inSep then splitAllGo isSep cs acc true
      else acc.reverse :: splitAllGo isSep cs [] true
    else splitAllGo isSep cs (c :: acc) false

/-- `re.split(sep, s)` without `maxsplit`, for a separator-class regex
`[..]+`: tokens between maximal separator runs (empty tokens at the edges
when the string starts or ends with a separator). -/
def splitAll (isSep : Char → Bool) (s : Str) : List Str :=
  splitAllGo isSep s [] false

/-- Python `\d` (the dictionaries involved use ASCII digits). -/
def pyIsDigit (c : Char) : Bool := c.isDigit

/-- `_WORD_WITH_NUMBER = re.compile(r"^([^(]+)(\(\d+\))$")` applied by
`load_lexicon`: when the whole word is a non-empty `(`-free stem followed by
`(<digits>)`, keep only the stem. -/
def stripNumberSuffix (w : Str) : Str :=
  let stem := w.takeWhile (fun c => c != '(')
  match w.dropWhile (fun c => c != '(') with
  | [] => w
  | _ :: rest =>
    if !stem.isEmpty && rest.getLast? == some ')' && !rest.dropLast.isEmpty
        && rest.dropLast.all pyIsDigit then
      stem
    else w

/-- `lexicon.get(word)`, with `[]` standing for a missing key. -/
def lexGet (lex : Lexicon) (w : Str) : List Pron :=
  match lex.find? (fun e => e.1 == w) with
  | some e => e.2
  | none => []

/-- One insertion of `load_lexicon`'s loop: append to an existing non-empty
entry (`word_prons.append(phonemes)`), otherwise set the key to the
one-element list (`lexicon[word] = [phonemes]`; a fresh key lands at the
end, in insertion order). -/
def lexAppend : Lexicon → Str → Pron → Lexicon
  | [], w, pron => [(w, [pron])]
  | e :: rest, w, pron =>
    if e.1 == w then
      (if e.2.isEmpty then (e.1, [pron]) else (e.1, e.2 ++ [pron])) :: rest
    else e :: lexAppend rest w pron

/-- One iteration of `load_lexicon`'s line loop: strip the line, skip blank
lines, split into word and phoneme string (a failed split raises, is caught,
and the line is skipped), strip the `(n)` marker, split the phonemes, and
insert. -/
def loadLine (wordSep phonemeSep : Char → Bool) (lex : Lexicon) (line : Str) : Lexicon :=
  let l := pyStrip line
  if l.isEmpty then lex
  else
    match splitMax1 wordSep l with
    | none => lex
    | some (w, phonemeStr) =>
      lexAppend lex (stripNumberSuffix w) (splitAll phonemeSep phonemeStr)

/-- The `load_lexicon` line loop over the lines of the input stream. -/
def loadLines (wordSep phonemeSep : Char → Bool) (lex : Lexicon) (lines : List Str) : Lexicon :=
  lines.foldl (loadLine wordSep phonemeSep) lex

/-- `load_lexicon` including the `lexicon = lexicon or defaultdict(list)`
aliasing: the first component is the returned store, the second the caller's
`lexicon` argument as it stands after the call.  A non-empty (truthy)
provided store is used as the base and mutated in place; an empty or absent
one is ignored and a fresh store is filled instead. -/
def loadLexiconRun (wordSep phonemeSep : Char → Bool) (lines : List Str)
    (intoStore : Option Lexicon) : Lexicon × Option Lexicon :=
  match intoStore with
  | none => (loadLines wordSep phonemeSep [] lines, none)
  | some s =>
    if s.isEmpty then (loadLines wordSep phonemeSep [] lines, some s)
    else (loadLines wordSep phonemeSep s lines, some (loadLines wordSep phonemeSep s lines))

/-- The word key and the pronunciation one line contributes to the store,
if any. -/
def lineEntry (wordSep phonemeSep : Char → Bool) (line : Str) : Option (Str × Pron) :=
  let l := pyStrip line
  if l.isEmpty then none
  else
    match splitMax1 wordSep l with
    | none => none
    | some (w, phonemeStr) =>
      some (stripNumberSuffix w, splitAll phonemeSep phonemeStr)

/-- The pronunciations a line contributes under the key `w`. -/
def lineContrib (wordSep phonemeSep : Char → Bool) (w : Str) (line : Str) : List Pron :=
  match lineEntry wordSep phonemeSep line with
  | some (k, p) => if k = w then [p] else []
  | none => []

/-- A line `load_lexicon` accepts: non-blank after stripping, and the word
separator occurs in it. -/
def wellFormedLine (wordSep : Char → Bool) (l : Str) : Bool :=
  !(pyStrip l).isEmpty && (splitMax1 wordSep (pyStrip l)).isSome

/-- `lexicon_line = f"{word}\t{' '.join(word_pron)}"` in `train`. -/
def lexiconLine (w : Str) (pron : Pron) : Str :=
  w ++ '\t' :: List.intercalate [' '] pron

/-- `_LEXICON_SKIP = re.compile(r".*[_|\xA0].*")` used through `.match`:
the line is skipped iff one of `_`, `|`, U+00A0 occurs before the line's
first newline (`.` does not cross newlines, and `.match` anchors only at the
start; inside the character class the `|` is a literal pipe). -/
def lexiconSkip (s : Str) : Bool :=
  (s.takeWhile (fun c => c != '\n')).any
    (fun c => c == '_' || c == '|' || c == '\u00A0')

/-- The serialized lines `train` writes for the external trainer: one line
per (word, pronunciation) pair, in store order, minus the skipped ones. -/
def trainLines (lex : Lexicon) : List Str :=
  lex.flatMap (fun e =>
    e.2.filterMap (fun pron =>
      let line := lexiconLine e.1 pron
      if lexiconSkip line then none else some line))

/-- `--casing`: `casing` is `None`, `str.lower` or `str.upper`. -/
inductive CasingMode
  | ignore
  | lower
  | upper

/-- Apply the selected casing transform. -/
def applyCasing : CasingMode → Str → Str
  | CasingMode.ignore, w => w
  | CasingMode.lower, w => w.map Char.toLower
  | CasingMode.upper, w => w.map Char.toUpper

/-- The per-word normalization of `guess_words`: `word.strip()`, then the
casing transform. -/
def normalizeWord (casing : CasingMode) (w : Str) : Str :=
  applyCasing casing (pyStrip w)

/-- `predict` (the external `phonetisaurus-apply` round trip), modelled per
the external contract: `g` gives each word its guessed pronunciations
(already n-best limited by the guesser), one output pair per returned line,
in batch order. -/
def predictModel (g : Str → List Pron) (batch : List Str) : List Output :=
  batch.flatMap (fun w => (g w).map (fun p => (w, p)))

/-- The word loop of `guess_words`: the (word, pronunciation) pairs printed
from the store, in input order, and the batch of words left to guess. -/
def guessWordsLoop (lex : Lexicon) (nbest : Nat) (casing : CasingMode) :
    List Str → List Output × List Str
  | [] => ([], [])
  | w :: ws =>
    let word := normalizeWord casing w
    let rest := guessWordsLoop lex nbest casing ws
    if lex.isEmpty then (rest.1, word :: rest.2)
    else
      match lexGet lex word with
      | [] => (rest.1, word :: rest.2)
      | wordProns => ((wordProns.take nbest).map (fun p => (word, p)) ++ rest.1, rest.2)

/-- `guess_words`: all emitted pairs (store answers first, then the guessed
ones), together with the external-guesser invocations made (each element is
the batch of one invocation). -/
def guessWordsRun (g : Str → List Pron) (lex : Lexicon) (nbest : Nat)
    (casing : CasingMode) (words : List Str) : List Output × List (List Str) :=
  let r := guessWordsLoop lex nbest casing words
  if r.2.isEmpty then (r.1, [])
  else (r.1 ++ predictModel g r.2, [r.2])

/-- The `--empty-line` loop of `do_predict`: accumulate stripped non-blank
lines; a blank line flushes a non-empty accumulator through `guess_words`;
end of input flushes any remainder.  Returns the emitted pairs and the
guesser invocations. -/
def delimRun (g : Str → List Pron) (lex : Lexicon) (nbest : Nat) (casing : CasingMode) :
    List Str → List Str → List Output × List (List Str)
  | acc, [] =>
    if acc.isEmpty then ([], []) else guessWordsRun g lex nbest casing acc
  | acc, l :: rest =>
    let w := pyStrip l
    if !w.isEmpty then delimRun g lex nbest casing (acc ++ [w]) rest
    else if !acc.isEmpty then
      let fl := guessWordsRun g lex nbest casing acc
      let r := delimRun g lex nbest casing [] rest
      (fl.1 ++ r.1, fl.2 ++ r.2)
    else delimRun g lex nbest casing acc rest

/-- The stripped non-blank lines of a stream: the word sequence it carries. -/
def wordsOf (lines : List Str) : List Str :=
  lines.filterMap (fun l => if (pyStrip l).isEmpty then none else some (pyStrip l))

/-- The results emitted for one word: the output pairs carrying that word. -/
def perWord (w : Str) (outs : List Output) : List Output :=
  outs.filter (fun o => o.1 == w)

/-! ### Lexicon-store lemmas -/

theorem lexGet_nil (w : Str) : lexGet [] w = [] := rfl

theorem lexGet_cons (e : Str × List Pron) (lex : Lexicon) (w : Str) :
    lexGet (e :: lex) w = if e.1 == w then e.2 else lexGet lex w := by
  cases h : e.1 == w <;> simp [lexGet, List.find?_cons, h]

theorem lexGet_lexAppend_self (lex : Lexicon) (w : Str) (p : Pron) :
    lexGet (lexAppend lex w p) w = lexGet lex w ++ [p] := by
  induction lex with
  | nil => simp [lexAppend, lexGet_cons, lexGet_nil]
  | cons e rest ih =>
    obtain ⟨k, v⟩ := e
    by_cases h : k = w
    · subst h
      cases v <;> simp [lexAppend, lexGet_cons]
    · have hb : (k == w) = false := beq_eq_false_iff_ne.mpr h
      simp [lexAppend, lexGet_cons, hb, ih]

theorem lexGet_lexAppend_ne (lex : Lexicon) (w k : Str) (p : Pron) (h : k ≠ w) :
    lexGet (lexAppend lex k p) w = lexGet lex w := by
  have hb : (k == w) = false := beq_eq_false_iff_ne.mpr h
  induction lex with
  | nil => simp [lexAppend, lexGet_cons, lexGet_nil, hb]
  | cons e rest ih =>
    obtain ⟨k', v⟩ := e
    by_cases h' : k' = k
    · subst h'
      cases v <;> simp [lexAppend, lexGet_cons, hb]
    · have hb' : (k' == k) = false := beq_eq_false_iff_ne.mpr h'
      simp [lexAppend, hb', lexGet_cons, ih]

theorem lexGet_lexAppend (lex : Lexicon) (w k : Str) (p : Pron) :
    lexGet (lexAppend lex k p) w = lexGet lex w ++ (if k = w then [p] else []) := by
  by_cases h : k = w
  · subst h; simp [lexGet_lexAppend_self]
  · simp [h, lexGet_lexAppend_ne lex w k p h]

theorem loadLine_eq (ws ps : Char → Bool) (lex : Lexicon) (line : Str) :
    loadLine ws ps lex line =
      match lineEntry ws ps line with
      | none => lex
      | some (k, p) => lexAppend lex k p := by
  simp only [loadLine, lineEntry]
  cases h1 : (pyStrip line).isEmpty
  · cases h2 : splitMax1 ws (pyStrip line) <;> simp [h1, h2]
  · simp [h1]

theorem lexGet_loadLines (ws ps : Char → Bool) (lex : Lexicon) (lines : List Str) (w : Str) :
    lexGet (loadLines ws ps lex lines) w
      = lexGet lex w ++ lines.flatMap (lineContrib ws ps w) := by
  induction lines generalizing lex with
  | nil => simp [loadLines]
  | cons l rest ih =>
    have hstep : loadLines ws ps lex (l :: rest) = loadLines ws ps (loadLine ws ps lex l) rest := rfl
    rw [hstep, ih, loadLine_eq, List.flatMap_cons]
    cases h : lineEntry ws ps l with
    | none => simp [lineContrib, h]
    | some kp =>
      obtain ⟨k, p⟩ := kp
      simp [lineContrib, h, lexGet_lexAppend, List.append_assoc]

theorem loadLexiconRun_some_fst (ws ps : Char → Bool) (lines : List Str) (s : Lexicon) :
    (loadLexiconRun ws ps lines (some s)).1 = loadLines ws ps s lines := by
  simp only [loadLexiconRun]
  cases h : s.isEmpty
  · simp
  · simp [List.isEmpty_iff.mp h]

theorem loadLine_not_wellFormed (ws ps : Char → Bool) (lex : Lexicon) (l : Str)
    (h : wellFormedLine ws l = false) : loadLine ws ps lex l = lex := by
  simp only [wellFormedLine, Bool.and_eq_false_iff, Bool.not_eq_false'] at h
  simp only [loadLine]
  cases hie : (pyStrip l).isEmpty
  · cases hs : splitMax1 ws (pyStrip l) with
    | none => simp [hie]
    | some kp =>
      rcases h with h | h
      · exact absurd hie (by simp [h])
      · exact absurd h (by simp [hs])
  · simp

theorem loadLines_filter (ws ps : Char → Bool) (lex : Lexicon) (ls : List Str) :
    loadLines ws ps lex ls = loadLines ws ps lex (ls.filter (wellFormedLine ws)) := by
  induction ls generalizing lex with
  | nil => rfl
  | cons l rest ih =>
    cases h : wellFormedLine ws l
    · have : loadLines ws ps lex (l :: rest) = loadLines ws ps (loadLine ws ps lex l) rest := rfl
      rw [this, loadLine_not_wellFormed ws ps lex l h, List.filter_cons_of_neg (by simp [h]), ih]
    · have : loadLines ws ps lex (l :: rest) = loadLines ws ps (loadLine ws ps lex l) rest := rfl
      rw [this, List.filter_cons_of_pos h]
      exact ih (loadLine ws ps lex l)

/-! ### Claims about the lexicon store -/

/-- C2: for any two lexicon sources loaded in sequence into the same store
(the second load receiving the first load's result through `into_store`),
every word's merged pronunciation list is the first source's list followed by
the second source's list, in order, with no de-duplication and no
replacement of earlier entries. -/
theorem load_lexicon_merge_appends (ws ps : Char → Bool) (lines1 lines2 : List Str) (w : Str) :
    lexGet (loadLexiconRun ws ps lines2 (some (loadLexiconRun ws ps lines1 none).1)).1 w
      = lexGet (loadLexiconRun ws ps lines1 none).1 w
        ++ lexGet (loadLexiconRun ws ps lines2 none).1 w := by
  rw [loadLexiconRun_some_fst]
  have h1 : (loadLexiconRun ws ps lines1 none).1 = loadLines ws ps [] lines1 := rfl
  have h2 : (loadLexiconRun ws ps lines2 none).1 = loadLines ws ps [] lines2 := rfl
  rw [h1, h2]
  simp [lexGet_loadLines, lexGet_nil]

/-- C5 counterexample: loading into a provided EMPTY store does not mutate
and return that store: `lexicon or defaultdict(list)` discards a falsy
(empty) dict, so the new entry lands in a fresh store (the first component)
while the provided store stays empty (the second component). -/
theorem into_store_counterexample :
    (loadLexiconRun whitespaceSep whitespaceSep ["a b".toList] (some [])).1
      = [("a".toList, [["b".toList]])]
    ∧ (loadLexiconRun whitespaceSep whitespaceSep ["a b".toList] (some [])).2 = some []
    ∧ (loadLexiconRun whitespaceSep whitespaceSep ["a b".toList] (some [])).2
      ≠ some (loadLexiconRun whitespaceSep whitespaceSep ["a b".toList] (some [])).1 := by
  decide

/-- C5 (amended): for every NON-empty provided store, load with `into_store`
returns that same store mutated in place (the caller's store after the call
is the returned store), pre-existing entries are preserved (each word's old
pronunciation list is a prefix of its new one), and entries for words not
contributed by any loaded line are unchanged.  A provided empty store is
discarded (see the counterexample). -/
theorem into_store_mutation (ws ps : Char → Bool) (lines : List Str) (s : Lexicon)
    (h : s ≠ []) :
    (loadLexiconRun ws ps lines (some s)).2 = some (loadLexiconRun ws ps lines (some s)).1
    ∧ (∀ w, ∃ t, lexGet (loadLexiconRun ws ps lines (some s)).1 w = lexGet s w ++ t)
    ∧ (∀ w, (∀ l ∈ lines, lineContrib ws ps w l = []) →
        lexGet (loadLexiconRun ws ps lines (some s)).1 w = lexGet s w) := by
  have hie : s.isEmpty = false := by
    cases hx : s.isEmpty
    · rfl
    · exact absurd (List.isEmpty_iff.mp hx) h
  refine ⟨by simp [loadLexiconRun, hie], fun w => ?_, fun w hw => ?_⟩
  · exact ⟨_, by rw [loadLexiconRun_some_fst, lexGet_loadLines]⟩
  · rw [loadLexiconRun_some_fst, lexGet_loadLines]
    simp [List.flatMap_eq_nil_iff.mpr hw]

theorem into_store_mutation_witness :
    ([("x".toList, [["P".toList]])] : Lexicon) ≠ []
    ∧ ((loadLexiconRun whitespaceSep whitespaceSep ["a b".toList]
          (some [("x".toList, [["P".toList]])])).2
        = some (loadLexiconRun whitespaceSep whitespaceSep ["a b".toList]
          (some [("x".toList, [["P".toList]])])).1
      ∧ (∀ w, ∃ t, lexGet (loadLexiconRun whitespaceSep whitespaceSep ["a b".toList]
          (some [("x".toList, [["P".toList]])])).1 w
            = lexGet [("x".toList, [["P".toList]])] w ++ t)
      ∧ (∀ w, (∀ l ∈ ["a b".toList], lineContrib whitespaceSep whitespaceSep w l = []) →
          lexGet (loadLexiconRun whitespaceSep whitespaceSep ["a b".toList]
            (some [("x".toList, [["P".toList]])])).1 w
              = lexGet [("x".toList, [["P".toList]])] w)) :=
  ⟨by decide,
    into_store_mutation whitespaceSep whitespaceSep ["a b".toList]
      [("x".toList, [["P".toList]])] (by decide)⟩

/-- C6: loading `READ(1)\tR IY D` then `READ(2)\tR EH D` yields a store
mapping `READ` to exactly `[[R,IY,D],[R,EH,D]]`: the trailing `(<digits>)`
marker is stripped at load time, case is unchanged, and lookup returns
exactly the source pronunciations modulo this normalization. -/
theorem load_read_disambiguation :
    loadLines whitespaceSep whitespaceSep []
        ["READ(1)\tR IY D".toList, "READ(2)\tR EH D".toList]
      = [("READ".toList,
          [["R".toList, "IY".toList, "D".toList], ["R".toList, "EH".toList, "D".toList]])]
    ∧ lexGet (loadLines whitespaceSep whitespaceSep []
        ["READ(1)\tR IY D".toList, "READ(2)\tR EH D".toList]) "READ".toList
      = [["R".toList, "IY".toList, "D".toList], ["R".toList, "EH".toList, "D".toList]] := by
  decide

/-- C7: a non-blank line in which the word-separator pattern does not occur
never aborts loading: the line is skipped, it leaves the store unchanged,
loading continues with the remaining lines, and the resulting store equals
the store obtained by loading only the well-formed lines. -/
theorem malformed_line_skipped (ws ps : Char → Bool) (lex : Lexicon) (l : Str)
    (rest : List Str) (_h1 : pyStrip l ≠ []) (h2 : splitMax1 ws (pyStrip l) = none) :
    loadLines ws ps lex (l :: rest) = loadLines ws ps lex rest
    ∧ ∀ ls : List Str,
        loadLines ws ps lex ls = loadLines ws ps lex (ls.filter (wellFormedLine ws)) := by
  constructor
  · have hwf : wellFormedLine ws l = false := by simp [wellFormedLine, h2]
    have hstep : loadLines ws ps lex (l :: rest) = loadLines ws ps (loadLine ws ps lex l) rest := rfl
    rw [hstep, loadLine_not_wellFormed ws ps lex l hwf]
  · exact loadLines_filter ws ps lex

theorem malformed_line_skipped_witness :
    pyStrip "abc".toList ≠ []
    ∧ splitMax1 whitespaceSep (pyStrip "abc".toList) = none
    ∧ (loadLines whitespaceSep whitespaceSep [] ["abc".toList, "a b".toList]
        = loadLines whitespaceSep whitespaceSep [] ["a b".toList]
      ∧ ∀ ls : List Str,
          loadLines whitespaceSep whitespaceSep [] ls
            = loadLines whitespaceSep whitespaceSep [] (ls.filter (wellFormedLine whitespaceSep))) :=
  ⟨by decide, by decide,
    malformed_line_skipped whitespaceSep whitespaceSep [] "abc".toList ["a b".toList]
      (by decide) (by decide)⟩

/-! ### The training serialization filter -/

theorem lexiconSkip_eq_false_iff (s : Str) :
    lexiconSkip s = false ↔
      ∀ c ∈ s.takeWhile (fun c => c != '\n'), c ≠ '_' ∧ c ≠ '|' ∧ c ≠ '\u00A0' := by
  simp [lexiconSkip, List.any_eq_false, not_or, and_assoc]

/-- C4 counterexample: the serialized line for the pair `("a|b", [X])` is
`a|b<TAB>X`, which contains neither `_` nor U+00A0, yet `train` excludes it:
the character class of `_LEXICON_SKIP` also contains a literal `|`. -/
theorem train_filter_counterexample :
    lexiconLine "a|b".toList ["X".toList] = "a|b\tX".toList
    ∧ ("a|b\tX".toList).all (fun c => c != '_' && c != '\u00A0') = true
    ∧ trainLines [("a|b".toList, [["X".toList]])] = [] := by
  decide

/-- C4 (amended): the line set `train` sends to the external trainer contains
exactly those (word, pronunciation) pairs whose serialized line
`word<TAB>phoneme1 phoneme2 ...` contains none of `_`, `|` and U+00A0 before
the line's first newline (for newline-free lines: anywhere in the line);
every such line is included and every other line is silently excluded. -/
theorem train_filter_reserved (lex : Lexicon) (l : Str) :
    l ∈ trainLines lex ↔
      ((∃ e ∈ lex, ∃ p ∈ e.2, l = lexiconLine e.1 p)
        ∧ ∀ c ∈ l.takeWhile (fun c => c != '\n'), c ≠ '_' ∧ c ≠ '|' ∧ c ≠ '\u00A0') := by
  rw [trainLines, List.mem_flatMap]
  constructor
  · rintro ⟨e, he, hmem⟩
    rw [List.mem_filterMap] at hmem
    obtain ⟨p, hp, hline⟩ := hmem
    cases hskip : lexiconSkip (lexiconLine e.1 p)
    · simp only [hskip, Bool.false_eq_true, if_false, Option.some.injEq] at hline
      subst hline
      exact ⟨⟨e, he, p, hp, rfl⟩, (lexiconSkip_eq_false_iff _).mp hskip⟩
    · simp [hskip] at hline
  · rintro ⟨⟨e, he, p, hp, rfl⟩, hchar⟩
    refine ⟨e, he, ?_⟩
    rw [List.mem_filterMap]
    exact ⟨p, hp, by simp [(lexiconSkip_eq_false_iff _).mpr hchar]⟩

theorem train_filter_witness :
    "a\tX".toList ∈ trainLines [("a".toList, [["X".toList]])] :=
  (train_filter_reserved [("a".toList, [["X".toList]])] "a\tX".toList).mpr
    ⟨⟨("a".toList, [["X".toList]]), by decide, ["X".toList], by decide, by decide⟩, by decide⟩

/-! ### Separator classes and U+00A0 -/

theorem dropRun_count (isSep : Char → Bool) (c : Char) (h : isSep c = false) (l : Str) :
    (dropRun isSep l).count c = l.count c := by
  induction l with
  | nil => rfl
  | cons a as ih =>
    cases ha : isSep a
    · simp [dropRun, ha]
    · have hac : (a == c) = false := by
        refine beq_eq_false_iff_ne.mpr fun hh => ?_
        rw [hh, h] at ha
        exact Bool.false_ne_true ha
      simp [dropRun, ha, ih, List.count_cons, hac]

theorem splitMax1_count (isSep : Char → Bool) (c : Char) (h : isSep c = false) :
    ∀ s w r : Str, splitMax1 isSep s = some (w, r) → (w ++ r).count c = s.count c := by
  intro s
  induction s with
  | nil => intro w r hs; simp [splitMax1] at hs
  | cons a as ih =>
    intro w r hs
    cases ha : isSep a
    · rw [splitMax1, if_neg (by simp [ha])] at hs
      cases hsp : splitMax1 isSep as with
      | none => rw [hsp] at hs; simp at hs
      | some p =>
        rw [hsp] at hs
        simp only [Option.map_some', Option.some.injEq, Prod.mk.injEq] at hs
        obtain ⟨hw, hr⟩ := hs
        subst hw; subst hr
        have hp := ih p.1 p.2 (by rw [hsp])
        simp [List.count_cons, hp]
    · rw [splitMax1, if_pos (by simp [ha])] at hs
      simp only [Option.some.injEq, Prod.mk.injEq] at hs
      obtain ⟨hw, hr⟩ := hs
      subst hw; subst hr
      have hac : (a == c) = false := by
        refine beq_eq_false_iff_ne.mpr fun hh => ?_
        rw [hh, h] at ha
        exact Bool.false_ne_true ha
      simp [dropRun_count isSep c h, List.count_cons, hac]

theorem splitAllGo_count (isSep : Char → Bool) (c : Char) (h : isSep c = false) :
    ∀ (s acc : Str) (b : Bool),
      ((splitAllGo isSep s acc b).flatten).count c = acc.count c + s.count c := by
  intro s
  induction s with
  | nil => intro acc b; simp [splitAllGo, List.count_reverse]
  | cons a as ih =>
    intro acc b
    have hac : isSep a = true → (a == c) = false := by
      intro ha
      refine beq_eq_false_iff_ne.mpr fun hh => ?_
      rw [hh, h] at ha
      exact Bool.false_ne_true ha
    cases ha : isSep a
    · simp [splitAllGo, ha, ih, List.count_cons]
      omega
    · cases b
      · simp [splitAllGo, ha, List.flatten_cons, List.count_append, List.count_reverse,
          ih, List.count_cons, hac ha]
      · simp [splitAllGo, ha, ih, List.count_cons, hac ha]

theorem splitAll_count (isSep : Char → Bool) (c : Char) (h : isSep c = false) (s : Str) :
    ((splitAll isSep s).flatten).count c = s.count c := by
  simpa using splitAllGo_count isSep c h s [] false

/-- C8 counterexample: with the command-line front end's default separator
regex `\s+` (which, in a Python 3 string pattern, matches U+00A0), the line
`a<NBSP>b c` is split at the no-break space: the stored key is `a`, not
`a<NBSP>b`.  The library default `[ \t]+` keeps the no-break space inside the
token. -/
theorem default_separator_counterexample :
    pythonSpaceSep '\u00A0' = true
    ∧ loadLines pythonSpaceSep pythonSpaceSep [] ["a\u00A0b c".toList]
      = [("a".toList, [["b".toList, "c".toList]])]
    ∧ loadLines whitespaceSep whitespaceSep [] ["a\u00A0b c".toList]
      = [("a\u00A0b".toList, [["c".toList]])] := by
  decide

/-- C8 (amended): the library default separator (`_WHITESPACE`, used when no
separator argument is supplied to `load_lexicon`) matches exactly space and
tab, never U+00A0, and splitting with it never removes a no-break space from
the surrounding text; the command-line front end, however, passes `\s+` by
default, and that class does match U+00A0. -/
theorem default_separator_nbsp :
    (∀ c : Char, whitespaceSep c = true ↔ (c = ' ' ∨ c = '\t'))
    ∧ whitespaceSep '\u00A0' = false
    ∧ (∀ s : Str, ((splitAll whitespaceSep s).flatten).count '\u00A0' = s.count '\u00A0')
    ∧ (∀ s w r : Str, splitMax1 whitespaceSep s = some (w, r) →
        (w ++ r).count '\u00A0' = s.count '\u00A0')
    ∧ pythonSpaceSep '\u00A0' = true := by
  refine ⟨?_, by decide, ?_, ?_, by decide⟩
  · intro c
    simp [whitespaceSep]
  · intro s
    exact splitAll_count whitespaceSep '\u00A0' (by decide) s
  · intro s w r
    exact splitMax1_count whitespaceSep '\u00A0' (by decide) s w r

theorem default_separator_witness :
    ("a".toList ++ "b c".toList).count '\u00A0' = "a\tb c".toList.count '\u00A0' :=
  default_separator_nbsp.2.2.2.1 "a\tb c".toList "a".toList "b c".toList (by decide)

/-! ### Stripping lemmas -/

theorem dropWhile_length_le {α : Type} (p : α → Bool) (l : List α) :
    (l.dropWhile p).length ≤ l.length := by
  induction l with
  | nil => simp
  | cons a as ih =>
    rw [List.dropWhile_cons]
    by_cases h : p a = true
    · simp [h]; omega
    · simp [h]

theorem dropWhile_idem {α : Type} (p : α → Bool) (l : List α) :
    (l.dropWhile p).dropWhile p = l.dropWhile p := by
  induction l with
  | nil => rfl
  | cons a as ih =>
    by_cases h : p a = true
    · simp [List.dropWhile_cons, h, ih]
    · simp [List.dropWhile_cons, h]

theorem dropWhile_eq_drop {α : Type} (p : α → Bool) (l : List α) :
    ∃ n, l.dropWhile p = l.drop n := by
  induction l with
  | nil => exact ⟨0, rfl⟩
  | cons a as ih =>
    by_cases h : p a = true
    · obtain ⟨n, hn⟩ := ih
      exact ⟨n + 1, by simp [List.dropWhile_cons, h, hn]⟩
    · exact ⟨0, by simp [List.dropWhile_cons, h]⟩

theorem dropWhile_eq_self_of_append {α : Type} (p : α → Bool) (x y : List α)
    (h : (x ++ y).dropWhile p = x ++ y) : x.dropWhile p = x := by
  cases x with
  | nil => rfl
  | cons a as =>
    have hpa : p a = false := by
      by_contra hpa
      have hpa' : p a = true := by revert hpa; cases p a <;> simp
      rw [List.cons_append, List.dropWhile_cons, if_pos hpa'] at h
      have hlen := congrArg List.length h
      rw [List.length_cons] at hlen
      have hle := dropWhile_length_le p (as ++ y)
      omega
    simp [List.dropWhile_cons, hpa]

theorem pyStrip_noLead (s : Str) : (pyStrip s).dropWhile pyIsSpace = pyStrip s := by
  unfold pyStrip
  obtain ⟨n, hn⟩ := dropWhile_eq_drop pyIsSpace (s.dropWhile pyIsSpace).reverse
  rw [hn]
  apply dropWhile_eq_self_of_append pyIsSpace _ ((s.dropWhile pyIsSpace).reverse.take n).reverse
  have hsplit :
      ((s.dropWhile pyIsSpace).reverse.drop n).reverse
          ++ ((s.dropWhile pyIsSpace).reverse.take n).reverse
        = s.dropWhile pyIsSpace := by
    rw [← List.reverse_append, List.take_append_drop, List.reverse_reverse]
  rw [hsplit]
  exact dropWhile_idem pyIsSpace s

theorem pyStrip_idem (s : Str) : pyStrip (pyStrip s) = pyStrip s := by
  have h1 : (pyStrip s).dropWhile pyIsSpace = pyStrip s := pyStrip_noLead s
  show (((pyStrip s).dropWhile pyIsSpace).reverse.dropWhile pyIsSpace).reverse = pyStrip s
  rw [h1]
  have h2 : (pyStrip s).reverse = (s.dropWhile pyIsSpace).reverse.dropWhile pyIsSpace := by
    unfold pyStrip
    rw [List.reverse_reverse]
  rw [h2, dropWhile_idem]
  rfl

/-! ### The `guess_words` loop -/

theorem guessWordsLoop_batch_lexGet (lex : Lexicon) (nbest : Nat) (casing : CasingMode) :
    ∀ (words : List Str) (n : Str),
      n ∈ (guessWordsLoop lex nbest casing words).2 → lexGet lex n = [] := by
  intro words
  induction words with
  | nil => intro n hn; simp [guessWordsLoop] at hn
  | cons w ws ih =>
    intro n hn
    cases hle : lex.isEmpty
    · simp only [guessWordsLoop, hle, Bool.false_eq_true, if_false] at hn
      cases hlg : lexGet lex (normalizeWord casing w) with
      | nil =>
        rw [hlg] at hn
        simp only [List.mem_cons] at hn
        rcases hn with hn | hn
        · rw [hn]; exact hlg
        · exact ih n hn
      | cons q qs =>
        rw [hlg] at hn
        exact ih n hn
    · rw [List.isEmpty_iff.mp hle]
      exact lexGet_nil n

theorem guessWordsLoop_out_lexGet (lex : Lexicon) (nbest : Nat) (casing : CasingMode) :
    ∀ (words : List Str) (o : Output),
      o ∈ (guessWordsLoop lex nbest casing words).1 → lexGet lex o.1 ≠ [] := by
  intro words
  induction words with
  | nil => intro o ho; simp [guessWordsLoop] at ho
  | cons w ws ih =>
    intro o ho
    cases hle : lex.isEmpty
    · simp only [guessWordsLoop, hle, Bool.false_eq_true, if_false] at ho
      cases hlg : lexGet lex (normalizeWord casing w) with
      | nil =>
        rw [hlg] at ho
        exact ih o ho
      | cons q qs =>
        rw [hlg] at ho
        simp only [List.mem_append, List.mem_map] at ho
        rcases ho with ⟨p, _hp, rfl⟩ | ho
        · simp [hlg]
        · exact ih o ho
    · simp only [guessWordsLoop, hle, if_true] at ho
      exact ih o ho

theorem guessWordsLoop_append (lex : Lexicon) (nbest : Nat) (casing : CasingMode)
    (ws1 ws2 : List Str) :
    guessWordsLoop lex nbest casing (ws1 ++ ws2)
      = ((guessWordsLoop lex nbest casing ws1).1 ++ (guessWordsLoop lex nbest casing ws2).1,
         (guessWordsLoop lex nbest casing ws1).2 ++ (guessWordsLoop lex nbest casing ws2).2) := by
  induction ws1 with
  | nil => simp [guessWordsLoop]
  | cons w ws ih =>
    rw [List.cons_append]
    cases hle : lex.isEmpty
    · cases hlg : lexGet lex (normalizeWord casing w) with
      | nil => simp [guessWordsLoop, hle, hlg, ih]
      | cons q qs => simp [guessWordsLoop, hle, hlg, ih, List.append_assoc]
    · simp [guessWordsLoop, hle, ih]

theorem predictModel_nil (g : Str → List Pron) : predictModel g [] = [] := rfl

theorem predictModel_append (g : Str → List Pron) (b1 b2 : List Str) :
    predictModel g (b1 ++ b2) = predictModel g b1 ++ predictModel g b2 :=
  List.flatMap_append b1 b2 _

theorem predictModel_mem (g : Str → List Pron) (batch : List Str) (o : Output)
    (ho : o ∈ predictModel g batch) : o.1 ∈ batch := by
  simp only [predictModel, List.mem_flatMap, List.mem_map] at ho
  obtain ⟨a, ha, p, _hp, rfl⟩ := ho
  exact ha

theorem guessWordsRun_fst (g : Str → List Pron) (lex : Lexicon) (nbest : Nat)
    (casing : CasingMode) (words : List Str) :
    (guessWordsRun g lex nbest casing words).1
      = (guessWordsLoop lex nbest casing words).1
        ++ predictModel g (guessWordsLoop lex nbest casing words).2 := by
  simp only [guessWordsRun]
  cases hb : (guessWordsLoop lex nbest casing words).2.isEmpty
  · simp [hb]
  · simp [hb, List.isEmpty_iff.mp hb, predictModel_nil]

/-- C1: for every input word list, store, nbest and casing mode, resolution
partitions the normalized words: a word whose normalized form has one or
more pronunciations in the store never reaches the guess batch, every word
in the guess batch has no store pronunciations, and no word answered from
the store is also in the batch handed to the guesser. -/
theorem guess_words_partition (_g : Str → List Pron) (lex : Lexicon) (nbest : Nat)
    (casing : CasingMode) (words : List Str) :
    (∀ w ∈ words,
        (lexGet lex (normalizeWord casing w) ≠ [] →
          normalizeWord casing w ∉ (guessWordsLoop lex nbest casing words).2)
        ∧ (normalizeWord casing w ∈ (guessWordsLoop lex nbest casing words).2 →
          lexGet lex (normalizeWord casing w) = []))
    ∧ ∀ o ∈ (guessWordsLoop lex nbest casing words).1,
        o.1 ∉ (guessWordsLoop lex nbest casing words).2 := by
  constructor
  · intro w _hw
    refine ⟨fun hne hmem => hne ?_, fun hmem => ?_⟩
    · exact guessWordsLoop_batch_lexGet lex nbest casing words _ hmem
    · exact guessWordsLoop_batch_lexGet lex nbest casing words _ hmem
  · intro o ho hmem
    exact guessWordsLoop_out_lexGet lex nbest casing words o ho
      (guessWordsLoop_batch_lexGet lex nbest casing words _ hmem)

theorem guess_words_partition_witness :
    "a".toList ∈ ["a".toList, "b".toList]
    ∧ lexGet [("a".toList, [["P".toList]])] (normalizeWord CasingMode.ignore "a".toList) ≠ []
    ∧ normalizeWord CasingMode.ignore "a".toList
        ∉ (guessWordsLoop [("a".toList, [["P".toList]])] 1 CasingMode.ignore
            ["a".toList, "b".toList]).2 :=
  ⟨by decide, by decide,
    ((guess_words_partition (fun _ => []) [("a".toList, [["P".toList]])] 1 CasingMode.ignore
        ["a".toList, "b".toList]).1 "a".toList (by decide)).1 (by decide)⟩

/-- C3: resolving from the store a word whose entry has `k` pronunciations,
with `nbest ≥ 1`, emits exactly `min nbest k` (word, pronunciation) pairs —
the first `min nbest k` pronunciations in store order — with no padding, no
repetition, and no guesser invocation. -/
theorem store_nbest_capping (g : Str → List Pron) (lex : Lexicon) (nbest : Nat)
    (casing : CasingMode) (w : Str) (prons : List Pron)
    (h1 : lexGet lex (normalizeWord casing w) = prons) (h2 : prons ≠ [])
    (_h3 : 1 ≤ nbest) :
    (guessWordsRun g lex nbest casing [w]).1
      = (prons.take nbest).map (fun p => (normalizeWord casing w, p))
    ∧ ((guessWordsRun g lex nbest casing [w]).1).length = min nbest prons.length
    ∧ (guessWordsRun g lex nbest casing [w]).2 = [] := by
  have hle : lex.isEmpty = false := by
    cases hx : lex.isEmpty
    · rfl
    · rw [List.isEmpty_iff.mp hx, lexGet_nil] at h1
      exact absurd h1.symm h2
  obtain ⟨p0, ps, hp⟩ := List.exists_cons_of_ne_nil h2
  have hloop : guessWordsLoop lex nbest casing [w]
      = ((prons.take nbest).map (fun p => (normalizeWord casing w, p)), []) := by
    subst hp
    simp [guessWordsLoop, hle, h1]
  refine ⟨?_, ?_, ?_⟩
  · simp [guessWordsRun, hloop, predictModel_nil]
  · simp [guessWordsRun, hloop, List.length_take]
  · simp [guessWordsRun, hloop]

theorem store_nbest_capping_witness :
    lexGet [("a".toList, [["P1".toList], ["P2".toList], ["P3".toList]])]
        (normalizeWord CasingMode.ignore "a".toList)
      = [["P1".toList], ["P2".toList], ["P3".toList]]
    ∧ ([["P1".toList], ["P2".toList], ["P3".toList]] : List Pron) ≠ []
    ∧ 1 ≤ 2
    ∧ ((guessWordsRun (fun _ => [])
          [("a".toList, [["P1".toList], ["P2".toList], ["P3".toList]])] 2
          CasingMode.ignore ["a".toList]).1
        = (([["P1".toList], ["P2".toList], ["P3".toList]] : List Pron).take 2).map
            (fun p => (normalizeWord CasingMode.ignore "a".toList, p))
      ∧ ((guessWordsRun (fun _ => [])
            [("a".toList, [["P1".toList], ["P2".toList], ["P3".toList]])] 2
            CasingMode.ignore ["a".toList]).1).length
          = min 2 ([["P1".toList], ["P2".toList], ["P3".toList]] : List Pron).length
      ∧ (guessWordsRun (fun _ => [])
            [("a".toList, [["P1".toList], ["P2".toList], ["P3".toList]])] 2
            CasingMode.ignore ["a".toList]).2 = []) :=
  ⟨by decide, by decide, by decide,
    store_nbest_capping (fun _ => [])
      [("a".toList, [["P1".toList], ["P2".toList], ["P3".toList]])] 2
      CasingMode.ignore "a".toList [["P1".toList], ["P2".toList], ["P3".toList]]
      (by decide) (by decide) (by decide)⟩

/-! ### Delimited versus eager batching -/

theorem perWord_append (w : Str) (o1 o2 : List Output) :
    perWord w (o1 ++ o2) = perWord w o1 ++ perWord w o2 :=
  List.filter_append _ _

theorem perWord_disjoint (g : Str → List Pron) (lex : Lexicon) (nbest : Nat)
    (casing : CasingMode) (ws1 ws2 : List Str) (w : Str) :
    perWord w (predictModel g (guessWordsLoop lex nbest casing ws1).2) = []
    ∨ perWord w (guessWordsLoop lex nbest casing ws2).1 = [] := by
  by_contra h
  push_neg at h
  obtain ⟨h1, h2⟩ := h
  obtain ⟨o1, ho1⟩ := List.exists_mem_of_ne_nil _ h1
  obtain ⟨o2, ho2⟩ := List.exists_mem_of_ne_nil _ h2
  simp only [perWord, List.mem_filter] at ho1 ho2
  have e1 : o1.1 = w := by simpa using ho1.2
  have e2 : o2.1 = w := by simpa using ho2.2
  have hb : o1.1 ∈ (guessWordsLoop lex nbest casing ws1).2 :=
    predictModel_mem g _ o1 ho1.1
  have hz : lexGet lex w = [] := by
    rw [← e1]
    exact guessWordsLoop_batch_lexGet lex nbest casing ws1 _ hb
  have hnz : lexGet lex w ≠ [] := by
    rw [← e2]
    exact guessWordsLoop_out_lexGet lex nbest casing ws2 o2 ho2.1
  exact hnz hz

theorem perWord_guessWordsRun_append (g : Str → List Pron) (lex : Lexicon) (nbest : Nat)
    (casing : CasingMode) (ws1 ws2 : List Str) (w : Str) :
    perWord w ((guessWordsRun g lex nbest casing (ws1 ++ ws2)).1)
      = perWord w ((guessWordsRun g lex nbest casing ws1).1)
        ++ perWord w ((guessWordsRun g lex nbest casing ws2).1) := by
  rw [guessWordsRun_fst, guessWordsRun_fst, guessWordsRun_fst, guessWordsLoop_append]
  rw [predictModel_append]
  simp only [perWord_append]
  rcases perWord_disjoint g lex nbest casing ws1 ws2 w with h | h <;>
    simp [h, List.append_assoc]

theorem perWord_delimRun (g : Str → List Pron) (lex : Lexicon) (nbest : Nat)
    (casing : CasingMode) :
    ∀ (lines acc : List Str) (w : Str),
      perWord w ((delimRun g lex nbest casing acc lines).1)
        = perWord w ((guessWordsRun g lex nbest casing (acc ++ wordsOf lines)).1) := by
  intro lines
  induction lines with
  | nil =>
    intro acc w
    rw [show wordsOf [] = [] from rfl, List.append_nil]
    simp only [delimRun]
    cases hae : acc.isEmpty
    · simp [hae]
    · rw [List.isEmpty_iff.mp hae]
      simp [guessWordsRun, guessWordsLoop, perWord]
  | cons l rest ih =>
    intro acc w
    cases hw : (pyStrip l).isEmpty
    · have hne : pyStrip l ≠ [] := fun he => by rw [he] at hw; simp at hw
      have hwords : wordsOf (l :: rest) = pyStrip l :: wordsOf rest := by
        simp [wordsOf, List.filterMap_cons, hw, hne]
      simp only [delimRun, hw, Bool.not_false, if_true]
      rw [ih (acc ++ [pyStrip l]) w, hwords, List.append_assoc]
      rfl
    · have hwords : wordsOf (l :: rest) = wordsOf rest := by
        simp [wordsOf, List.filterMap_cons, hw, List.isEmpty_iff.mp hw]
      rw [hwords]
      cases hae : acc.isEmpty
      · simp only [delimRun, hw, hae, Bool.not_true, Bool.not_false, if_false, if_true,
          Bool.false_eq_true]
        rw [perWord_append, ih [] w, List.nil_append,
          ← perWord_guessWordsRun_append g lex nbest casing acc (wordsOf rest) w]
      · rw [List.isEmpty_iff.mp hae]
        simp only [delimRun, hw, Bool.not_true, if_false, List.isEmpty_nil, Bool.false_eq_true]
        rw [ih [] w]

theorem guessWordsLoop_map_pyStrip (lex : Lexicon) (nbest : Nat) (casing : CasingMode)
    (ws : List Str) :
    guessWordsLoop lex nbest casing (ws.map pyStrip) = guessWordsLoop lex nbest casing ws := by
  induction ws with
  | nil => rfl
  | cons w rest ih =>
    simp only [List.map_cons, guessWordsLoop, ih, normalizeWord, pyStrip_idem]

theorem wordsOf_eq_map_filter (lines : List Str) :
    wordsOf lines = (lines.filter (fun l => !(pyStrip l).isEmpty)).map pyStrip := by
  induction lines with
  | nil => rfl
  | cons l rest ih =>
    cases hw : (pyStrip l).isEmpty
    · have hcons : wordsOf (l :: rest) = pyStrip l :: wordsOf rest := by
        simp only [wordsOf, List.filterMap_cons]
        rw [if_neg (by simp [hw])]
      rw [hcons, List.filter_cons_of_pos (by simp [hw]), List.map_cons, ih]
    · have hcons : wordsOf (l :: rest) = wordsOf rest := by
        simp only [wordsOf, List.filterMap_cons]
        rw [if_pos hw]
      rw [hcons, List.filter_cons_of_neg (by simp [hw]), ih]

/-- C9: for every word stream, store, nbest and casing mode, and for every
placement of blank-line delimiters in the stream, delimited (`--empty-line`)
mode and eager mode (one `guess_words` call over the non-blank words)
produce identical per-word (word, pronunciation) results; only the number
and timing of guesser invocations differ. -/
theorem delimited_eager_equivalence (g : Str → List Pron) (lex : Lexicon) (nbest : Nat)
    (casing : CasingMode) (lines : List Str) (w : Str) :
    perWord w ((delimRun g lex nbest casing [] lines).1)
      = perWord w ((guessWordsRun g lex nbest casing
          (lines.filter (fun l => !(pyStrip l).isEmpty))).1) := by
  rw [perWord_delimRun g lex nbest casing lines [] w, List.nil_append, wordsOf_eq_map_filter]
  have hrun :
      guessWordsRun g lex nbest casing
          ((lines.filter (fun l => !(pyStrip l).isEmpty)).map pyStrip)
        = guessWordsRun g lex nbest casing (lines.filter (fun l => !(pyStrip l).isEmpty)) := by
    simp [guessWordsRun, guessWordsLoop_map_pyStrip]
  rw [hrun]

/-! ### Guesser invocations are never empty -/

theorem guessWordsRun_calls_ne_nil (g : Str → List Pron) (lex : Lexicon) (nbest : Nat)
    (casing : CasingMode) (words : List Str) (b : List Str)
    (hb : b ∈ (guessWordsRun g lex nbest casing words).2) : b ≠ [] := by
  simp only [guessWordsRun] at hb
  cases hbe : (guessWordsLoop lex nbest casing words).2.isEmpty
  · rw [hbe] at hb
    simp only [Bool.false_eq_true, if_false, List.mem_singleton] at hb
    subst hb
    intro hnil
    rw [hnil] at hbe
    simp at hbe
  · rw [hbe] at hb
    simp at hb

theorem delimRun_calls_ne_nil (g : Str → List Pron) (lex : Lexicon) (nbest : Nat)
    (casing : CasingMode) :
    ∀ (lines acc : List Str) (b : List Str),
      b ∈ (delimRun g lex nbest casing acc lines).2 → b ≠ [] := by
  intro lines
  induction lines with
  | nil =>
    intro acc b hb
    simp only [delimRun] at hb
    cases hae : acc.isEmpty
    · rw [hae] at hb
      simp only [Bool.false_eq_true, if_false] at hb
      exact guessWordsRun_calls_ne_nil g lex nbest casing acc b hb
    · rw [hae] at hb
      simp at hb
  | cons l rest ih =>
    intro acc b hb
    cases hw : (pyStrip l).isEmpty
    · simp only [delimRun, hw, Bool.not_false, if_true] at hb
      exact ih (acc ++ [pyStrip l]) b hb
    · cases hae : acc.isEmpty
      · simp only [delimRun, hw, hae, Bool.not_true, Bool.not_false, if_false, if_true,
          Bool.false_eq_true, List.mem_append] at hb
        rcases hb with hb | hb
        · exact guessWordsRun_calls_ne_nil g lex nbest casing acc b hb
        · exact ih [] b hb
      · simp only [delimRun, hw, hae, Bool.not_true, if_false, Bool.false_eq_true] at hb
        exact ih acc b hb

/-- C10: the external guesser is never invoked with an empty batch: every
recorded invocation of a delimited run has a non-empty batch, a flush whose
words were all resolved from the store performs no invocation at all, and in
delimited mode a blank line arriving while the accumulator is empty (e.g. a
second consecutive blank line) triggers no flush. -/
theorem no_empty_guesser_batch (g : Str → List Pron) (lex : Lexicon) (nbest : Nat)
    (casing : CasingMode) (lines : List Str) (l : Str) (rest : List Str)
    (h : pyStrip l = []) :
    (∀ b ∈ (delimRun g lex nbest casing [] lines).2, b ≠ [])
    ∧ ((guessWordsLoop lex nbest casing lines).2 = [] →
        (guessWordsRun g lex nbest casing lines).2 = [])
    ∧ delimRun g lex nbest casing [] (l :: rest) = delimRun g lex nbest casing [] rest := by
  refine ⟨fun b hb => delimRun_calls_ne_nil g lex nbest casing lines [] b hb, ?_, ?_⟩
  · intro hz
    simp [guessWordsRun, hz]
  · simp [delimRun, h]

theorem no_empty_guesser_batch_witness :
    pyStrip "".toList = []
    ∧ ((∀ b ∈ (delimRun (fun _ => [["G".toList]]) [] 1 CasingMode.ignore [] ["x".toList]).2,
          b ≠ [])
      ∧ ((guessWordsLoop [] 1 CasingMode.ignore ["x".toList]).2 = [] →
          (guessWordsRun (fun _ => [["G".toList]]) [] 1 CasingMode.ignore ["x".toList]).2 = [])
      ∧ delimRun (fun _ => [["G".toList]]) [] 1 CasingMode.ignore [] ["".toList, "y".toList]
          = delimRun (fun _ => [["G".toList]]) [] 1 CasingMode.ignore [] ["y".toList]) :=
  ⟨by decide,
    no_empty_guesser_batch (fun _ => [["G".toList]]) [] 1 CasingMode.ignore ["x".toList]
      "".toList ["y".toList] (by decide)⟩

end Phonetisaurus
